import Mathlib

/-!
Verification of the execution engine of the Commons depicts analyzer
backend (`backend/api.py`, `backend/main.py`, `backend/database.py`):
the retrying API-call wrapper, the TTL+LRU label cache, the SQLite
connection pool, the in-memory job registry with cooperative
cancellation, and the analysis pipeline that drives them.

Machine conventions of the shallow embedding:
* Python floats used for timestamps and delays are modelled as rationals
  (the code only ever multiplies a base delay by a power of two and
  compares timestamp differences, both exact operations).
* The outcome of an outbound HTTP call on the i-th attempt is an
  environment function `Nat → Outcome`, distinguishing
  `requests.exceptions.RequestException` (the only class the retry
  wrapper catches) from other exceptions such as `ValueError`.
* `collections.OrderedDict` is modelled as an association list in
  recency order (head = least recently used, tail = most recent).
* The SQLite `files` table is a list of records; `INSERT .. ON CONFLICT
  DO UPDATE` keyed on `(file_name, category)` is an upsert.
-/

namespace DepictsAnalyzer

/-! ### api.retry_on_failure -/

/-- Outcome of one attempt of a wrapped zero-argument operation:
a returned value, a `requests.exceptions.RequestException` (transient,
caught by the wrapper), or any other exception (e.g. `ValueError`),
which the wrapper does not catch. -/
inductive Outcome (ε α : Type) where
  | ok : α → Outcome ε α
  | transient : ε → Outcome ε α
  | fatal : ε → Outcome ε α
deriving Repr, DecidableEq

/-- Observable result of running the wrapped operation: the returned
value, or the exception the wrapper re-raises. -/
inductive RunResult (ε α : Type) where
  | value : α → RunResult ε α
  | raisedTransient : ε → RunResult ε α
  | raisedFatal : ε → RunResult ε α
deriving Repr, DecidableEq

/-- Body of the loop `for attempt in range(max_retries + 1)` of
`retry_on_failure`: `attempt` is the 0-based attempt index and
`remaining = max_retries - attempt` counts the retries still allowed
(the source guards the sleep with `attempt < max_retries`).  The second
component collects the slept delays `base_delay * 2 ** attempt` in
order. -/
def retryAux (op : Nat → Outcome ε α) (baseDelay : ℚ) :
    Nat → Nat → RunResult ε α × List ℚ
  | attempt, remaining =>
    match op attempt with
    | .ok a => (.value a, [])
    | .fatal e => (.raisedFatal e, [])
    | .transient e =>
      match remaining with
      | 0 => (.raisedTransient e, [])
      | r + 1 =>
        let rest := retryAux op baseDelay (attempt + 1) r
        (rest.1, baseDelay * 2 ^ attempt :: rest.2)

/-- Embedding of `api.retry_on_failure(max_retries, base_delay)` applied
to an operation whose i-th call behaves as `op i`.  Returns the final
result together with the list of back-off delays slept. -/
def retry_on_failure (maxRetries : Nat) (baseDelay : ℚ)
    (op : Nat → Outcome ε α) : RunResult ε α × List ℚ :=
  retryAux op baseDelay 0 maxRetries

theorem retryAux_ok (op : Nat → Outcome ε α) (b : ℚ) (attempt remaining : Nat)
    (a : α) (h : op attempt = .ok a) :
    retryAux op b attempt remaining = (.value a, []) := by
  unfold retryAux; rw [h]

theorem retryAux_fatal (op : Nat → Outcome ε α) (b : ℚ) (attempt remaining : Nat)
    (e : ε) (h : op attempt = .fatal e) :
    retryAux op b attempt remaining = (.raisedFatal e, []) := by
  unfold retryAux; rw [h]

theorem retryAux_transient_zero (op : Nat → Outcome ε α) (b : ℚ) (attempt : Nat)
    (e : ε) (h : op attempt = .transient e) :
    retryAux op b attempt 0 = (.raisedTransient e, []) := by
  unfold retryAux; rw [h]

theorem retryAux_transient_succ (op : Nat → Outcome ε α) (b : ℚ) (attempt r : Nat)
    (e : ε) (h : op attempt = .transient e) :
    retryAux op b attempt (r + 1)
      = ((retryAux op b (attempt + 1) r).1,
          b * 2 ^ attempt :: (retryAux op b (attempt + 1) r).2) := by
  conv_lhs => unfold retryAux
  rw [h]

theorem retryAux_transient_prefix (op : Nat → Outcome ε α) (b : ℚ)
    (e : Nat → ε) (a : α) :
    ∀ r attempt, (∀ j, j < r → op (attempt + j) = .transient (e (attempt + j))) →
      op (attempt + r) = .ok a →
      retryAux op b attempt r =
        (.value a, (List.range' attempt r).map fun i => b * 2 ^ i) := by
  intro r
  induction r with
  | zero =>
    intro attempt _ hok
    simp only [Nat.add_zero] at hok
    simp [retryAux_ok op b attempt 0 a hok]
  | succ r ih =>
    intro attempt hfail hok
    have h0 : op attempt = .transient (e attempt) := by
      simpa using hfail 0 (Nat.succ_pos r)
    have hrec := ih (attempt + 1)
      (fun j hj => by
        have := hfail (j + 1) (by omega)
        simpa [Nat.add_assoc, Nat.add_comm 1 j] using this)
      (by
        have harith : attempt + (r + 1) = attempt + 1 + r := by omega
        rw [← harith]; exact hok)
    rw [retryAux_transient_succ op b attempt r _ h0, hrec, List.range'_succ]
    simp

theorem retryAux_all_transient (op : Nat → Outcome ε α) (b : ℚ) (e : Nat → ε) :
    ∀ r attempt, (∀ j, j ≤ r → op (attempt + j) = .transient (e (attempt + j))) →
      (retryAux op b attempt r).1
        = RunResult.raisedTransient (α := α) (e (attempt + r)) := by
  intro r
  induction r with
  | zero =>
    intro attempt hfail
    have h0 : op attempt = .transient (e attempt) := by
      simpa using hfail 0 (Nat.le_refl 0)
    simp [retryAux_transient_zero op b attempt _ h0]
  | succ r ih =>
    intro attempt hfail
    have h0 : op attempt = .transient (e attempt) := by
      simpa using hfail 0 (Nat.zero_le _)
    have hrec := ih (attempt + 1)
      (fun j hj => by
        have := hfail (j + 1) (by omega)
        simpa [Nat.add_assoc, Nat.add_comm 1 j] using this)
    have harith : attempt + 1 + r = attempt + (r + 1) := by omega
    rw [retryAux_transient_succ op b attempt r _ h0, hrec, harith]

/-- C1.  A wrapped operation that fails with a `RequestException` on each
of the first `maxRetries` attempts and then succeeds returns the success
value after sleeping exactly the delays `base, 2*base, 4*base, ...`
(one per retry, so exactly `maxRetries` retries); an operation failing
transiently on all `maxRetries + 1` attempts makes the wrapper re-raise
the last transient failure. -/
theorem retry_backoff_spec (ε α : Type) (maxRetries : Nat) (base : ℚ)
    (e : Nat → ε) (a : α) :
    retry_on_failure maxRetries base
        (fun i => if i < maxRetries then Outcome.transient (e i) else .ok a)
      = (.value a, (List.range maxRetries).map fun i => base * 2 ^ i)
    ∧ (retry_on_failure maxRetries base
        (fun i => (Outcome.transient (e i) : Outcome ε α))).1
      = .raisedTransient (e maxRetries) := by
  constructor
  · have := retryAux_transient_prefix
      (fun i => if i < maxRetries then Outcome.transient (e i) else .ok a)
      base e a maxRetries 0
      (fun j hj => by simp [Nat.zero_add, hj])
      (by simp)
    simpa [retry_on_failure, List.range_eq_range'] using this
  · have := retryAux_all_transient
      (fun i => (Outcome.transient (e i) : Outcome ε α)) base e maxRetries 0
      (fun j _ => rfl)
    simpa [retry_on_failure] using this

/-! ### api.fetch_category_files (fetch attempt) -/

/-- Environment of one attempt of `api.fetch_category_files`: whether
`validate_category_exists` reports the category as existing, the
`ValueError` message used when it does not, and the pages of file titles
the paginated `categorymembers` listing yields when it does. -/
structure FetchEnv where
  categoryExists : Bool
  notFoundMsg : String
  pages : List (List String)

/-- One attempt of `api.fetch_category_files`: the category is validated
first, and a nonexistent category raises `ValueError` — not a
`RequestException`, so the surrounding `retry_on_failure` does not catch
it; otherwise all pages are accumulated in listing order. -/
def fetch_category_files_attempt (env : FetchEnv) : Outcome String (List String) :=
  if env.categoryExists then .ok env.pages.flatten else .fatal env.notFoundMsg

/-- C6.  Non-transient errors are never retried and propagate on the
first attempt: fetching a nonexistent category raises its `ValueError`
with no sleeps performed, for any retry budget, and in general any
operation whose first attempt raises a non-`RequestException` propagates
it immediately regardless of what later attempts would do. -/
theorem nonretryable_errors_propagate_immediately (ε α : Type)
    (maxRetries : Nat) (base : ℚ) (msg : String) (pages : List (List String))
    (rest : Nat → Outcome ε α) (e : ε) :
    retry_on_failure maxRetries base
        (fun _ => fetch_category_files_attempt ⟨false, msg, pages⟩)
      = (.raisedFatal msg, [])
    ∧ retry_on_failure maxRetries base (fun i => if i = 0 then .fatal e else rest i)
      = (.raisedFatal e, []) := by
  constructor
  · simp [retry_on_failure, retryAux, fetch_category_files_attempt]
  · simp [retry_on_failure, retryAux]

/-! ### api label cache (`_label_cache`, `_cache_get`, `_cache_set`)

The cache only subtracts and compares `time.time()` values, so time is
modelled by any linearly ordered type with subtraction; `ℚ` is the
intended reading of Python floats, and witnesses instantiate at `ℤ`. -/

/-- Entry of the `OrderedDict`-backed label cache: key, value, and the
`time.time()` timestamp recorded at insertion. -/
abbrev CacheEntry (Time : Type) := String × String × Time

/-- The `OrderedDict` in recency order: head = least recently touched,
tail = most recently touched. -/
abbrev Cache (Time : Type) := List (CacheEntry Time)

/-- Removal of a key from the ordered dict (`OrderedDict.pop`). -/
def eraseKey (c : Cache Time) (k : String) : Cache Time :=
  c.filter fun e => e.1 != k

/-- Embedding of `api._cache_get(cache_key)` at time `now`, parametrized
by the configured TTL (source constant `_LABEL_CACHE_TTL = 3600`).
Returns the looked-up value (if any) together with the updated cache: a
missing key leaves the cache unchanged, an entry older than the TTL is
popped, and a live entry is moved to the most-recent end
(`move_to_end`) with its insertion timestamp kept. -/
def _cache_get [LinearOrder Time] [Sub Time] (ttl : Time) (c : Cache Time)
    (k : String) (now : Time) : Option String × Cache Time :=
  match c.find? (fun e => e.1 == k) with
  | none => (none, c)
  | some (_, v, ts) =>
    if ttl < now - ts then (none, eraseKey c k)
    else (some v, eraseKey c k ++ [(k, v, ts)])

/-- The `while len(_label_cache) > _LABEL_CACHE_MAX: popitem(last=False)`
loop of `_cache_set`: drop least-recently-used entries from the front
until the size bound holds. -/
def evictWhileOver (maxSize : Nat) : Cache Time → Cache Time
  | [] => []
  | e :: rest =>
    if maxSize < (e :: rest).length then evictWhileOver maxSize rest
    else e :: rest

/-- Embedding of `api._cache_set(cache_key, value)` at time `now`,
parametrized by the configured maximum size (source constant
`_LABEL_CACHE_MAX = 5000`): insert/overwrite the entry with the current
timestamp at the most-recent end, then evict from the
least-recently-used front while over capacity. -/
def _cache_set (maxSize : Nat) (c : Cache Time) (k v : String) (now : Time) :
    Cache Time :=
  evictWhileOver maxSize (eraseKey c k ++ [(k, v, now)])

/-- A cache operation as issued by `resolve_labels`:
a `get` or a `set` at a given `time.time()` instant. -/
inductive CacheOp (Time : Type) where
  | get (k : String) (now : Time)
  | set (k v : String) (now : Time)

/-- Effect of one operation on the cache state. -/
def applyOp [LinearOrder Time] [Sub Time] (ttl : Time) (maxSize : Nat)
    (c : Cache Time) : CacheOp Time → Cache Time
  | .get k now => (_cache_get ttl c k now).2
  | .set k v now => _cache_set maxSize c k v now

/-- State of the cache after a sequence of operations. -/
def runOps [LinearOrder Time] [Sub Time] (ttl : Time) (maxSize : Nat)
    (c : Cache Time) (ops : List (CacheOp Time)) : Cache Time :=
  ops.foldl (applyOp ttl maxSize) c

theorem evictWhileOver_eq_drop (maxSize : Nat) :
    ∀ l : Cache Time, evictWhileOver maxSize l = l.drop (l.length - maxSize) := by
  intro l
  induction l with
  | nil => simp [evictWhileOver]
  | cons e rest ih =>
    simp only [evictWhileOver, List.length_cons]
    by_cases h : maxSize < rest.length + 1
    · rw [if_pos h, ih]
      have hlen : rest.length + 1 - maxSize = (rest.length - maxSize) + 1 := by
        omega
      rw [hlen, List.drop_succ_cons]
    · rw [if_neg h]
      have hlen : rest.length + 1 - maxSize = 0 := by omega
      rw [hlen, List.drop_zero]

theorem evictWhileOver_length_le (maxSize : Nat) :
    ∀ l : Cache Time, (evictWhileOver maxSize l).length ≤ maxSize := by
  intro l
  induction l with
  | nil => simp [evictWhileOver]
  | cons e rest ih =>
    simp only [evictWhileOver, List.length_cons]
    by_cases h : maxSize < rest.length + 1
    · rw [if_pos h]; exact ih
    · rw [if_neg h]
      simpa using Nat.le_of_not_lt h

theorem eraseKey_length_le (c : Cache Time) (k : String) :
    (eraseKey c k).length ≤ c.length :=
  List.length_filter_le _ _

theorem find?_length_eraseKey_lt (c : Cache Time) (k : String) (e : CacheEntry Time)
    (h : c.find? (fun e => e.1 == k) = some e) :
    (eraseKey c k).length < c.length := by
  induction c with
  | nil => simp at h
  | cons x rest ih =>
    by_cases hx : (x.1 == k) = true
    · have hx' : (x.1 != k) = false := by simp [bne, hx]
      simp only [eraseKey, List.filter_cons, hx', Bool.false_eq_true, if_false,
        List.length_cons]
      exact Nat.lt_succ_of_le (List.length_filter_le _ _)
    · rw [List.find?_cons_of_neg _ (by simpa using hx)] at h
      have hrec := ih h
      have hx' : (x.1 != k) = true := by simp [bne, hx]
      simp only [eraseKey, List.filter_cons, hx', if_true, List.length_cons] at hrec ⊢
      omega

theorem cache_get_length_le [LinearOrder Time] [Sub Time] (ttl : Time)
    (c : Cache Time) (k : String) (now : Time) :
    (_cache_get ttl c k now).2.length ≤ c.length := by
  unfold _cache_get
  cases hf : c.find? (fun e => e.1 == k) with
  | none => simp
  | some e =>
    obtain ⟨k', v, ts⟩ := e
    by_cases hc : ttl < now - ts
    · simpa [hc] using eraseKey_length_le c k
    · have := find?_length_eraseKey_lt c k _ hf
      simp only [hc, if_false]
      simp only [List.length_append, List.length_cons, List.length_nil]
      omega

theorem applyOp_length_le [LinearOrder Time] [Sub Time] (ttl : Time)
    (maxSize : Nat) (c : Cache Time) (op : CacheOp Time)
    (h : c.length ≤ maxSize) : (applyOp ttl maxSize c op).length ≤ maxSize := by
  cases op with
  | get k now => exact le_trans (cache_get_length_le ttl c k now) h
  | set k v now => exact evictWhileOver_length_le maxSize _

theorem runOps_length_le [LinearOrder Time] [Sub Time] (ttl : Time) (maxSize : Nat) :
    ∀ (ops : List (CacheOp Time)) (c : Cache Time), c.length ≤ maxSize →
      (runOps ttl maxSize c ops).length ≤ maxSize := by
  intro ops
  induction ops with
  | nil => intro c h; simpa [runOps] using h
  | cons op rest ih =>
    intro c h
    have h1 := applyOp_length_le ttl maxSize c op h
    simpa [runOps, List.foldl_cons] using ih _ h1

theorem eraseKey_of_find?_none (c : Cache Time) (k : String)
    (h : c.find? (fun e => e.1 == k) = none) : eraseKey c k = c := by
  induction c with
  | nil => rfl
  | cons x rest ih =>
    rw [List.find?_cons] at h
    by_cases hx : (x.1 == k) = true
    · simp [hx] at h
    · have hx' : (x.1 != k) = true := by simp [bne, hx]
      simp only [eraseKey, List.filter_cons, hx', if_true]
      simp only [eraseKey] at ih
      rw [ih (by simpa [hx] using h)]

/-- C4.  The cache never exceeds the configured maximum entry count:
any sequence of `get`/`set` operations starting from the empty cache
(hence, applied repeatedly, after each operation of the sequence) keeps
the size within `maxSize`; a `set` of a fresh key on a full cache evicts
exactly the least-recently-touched entry (the front of the recency
order); and on a capacity-3 cache the sequence insert A, insert B,
insert C, get A, insert D evicts B and leaves A, C, D. -/
theorem label_cache_bounded_lru [LinearOrder Time] [Sub Time] (ttl : Time)
    (maxSize : Nat) :
    (∀ ops : List (CacheOp Time), (runOps ttl maxSize [] ops).length ≤ maxSize)
    ∧ (∀ (c : Cache Time) (k v : String) (now : Time), 0 < maxSize →
        c.length = maxSize → c.find? (fun e => e.1 == k) = none →
        _cache_set maxSize c k v now = c.tail ++ [(k, v, now)])
    ∧ runOps (3600 : ℤ) 3 []
        [.set "A" "a" 0, .set "B" "b" 1, .set "C" "c" 2, .get "A" 3,
         .set "D" "d" 4]
      = [("C", "c", 2), ("A", "a", 0), ("D", "d", 4)] := by
  refine ⟨fun ops => runOps_length_le ttl maxSize ops [] (by simp), ?_, by decide⟩
  intro c k v now hpos hlen hfresh
  obtain ⟨x, rest, rfl⟩ : ∃ x rest, c = x :: rest := by
    cases c with
    | nil => simp at hlen; omega
    | cons x rest => exact ⟨x, rest, rfl⟩
  simp only [List.length_cons] at hlen
  unfold _cache_set
  rw [eraseKey_of_find?_none _ _ hfresh]
  rw [evictWhileOver_eq_drop]
  have h1 : ((x :: rest) ++ [(k, v, now)]).length - maxSize = 1 := by
    simp only [List.length_append, List.length_cons, List.length_nil]
    omega
  rw [h1]
  simp

/-- Witness for the hypothesis-bearing conjunct of C4: on a full
capacity-2 cache, setting the fresh key C evicts the front entry A. -/
theorem label_cache_bounded_lru_witness :
    _cache_set 2 [("A", "a", (0 : ℤ)), ("B", "b", 1)] "C" "c" 2
      = [("B", "b", 1), ("C", "c", 2)] :=
  (label_cache_bounded_lru (3600 : ℤ) 2).2.1
    [("A", "a", 0), ("B", "b", 1)] "C" "c" 2 (by decide) (by decide) (by decide)

theorem mem_eraseKey_ne (c : Cache Time) (k : String) (e : CacheEntry Time)
    (h : e ∈ eraseKey c k) : (e.1 == k) = false := by
  have := List.of_mem_filter h
  simpa [bne] using this

theorem find?_append_last (k : String) (x : CacheEntry Time) :
    ∀ l : Cache Time, (∀ e ∈ l, (e.1 == k) = false) → (x.1 == k) = true →
      List.find? (fun e => e.1 == k) (l ++ [x]) = some x := by
  intro l
  induction l with
  | nil => intro _ hx; simpa using hx
  | cons y rest ih =>
    intro hl hx
    have hy : (y.1 == k) = false := hl y (List.mem_cons_self y rest)
    rw [List.cons_append, List.find?_cons_of_neg _ (by simp [hy])]
    exact ih (fun e he => hl e (List.mem_cons_of_mem y he)) hx

theorem find?_cache_set (maxSize : Nat) (c : Cache Time) (k v : String)
    (t : Time) (hpos : 0 < maxSize) :
    List.find? (fun e => e.1 == k) (_cache_set maxSize c k v t)
      = some (k, v, t) := by
  unfold _cache_set
  rw [evictWhileOver_eq_drop]
  set l := eraseKey c k with hl
  have hd : (l ++ [(k, v, t)]).length - maxSize ≤ l.length := by
    simp only [List.length_append, List.length_cons, List.length_nil]
    omega
  rw [List.drop_append_of_le_length hd]
  refine find?_append_last k _ _ (fun e he => ?_) (by simp)
  exact mem_eraseKey_ne c k e (List.drop_subset _ _ he)

/-- C5.  A value stored by `_cache_set` and read back by `_cache_get`
within the TTL is returned, and the entry is moved to the most-recent
end of the recency order with its insertion timestamp kept; while a
`get` whose entry is older than the TTL pops the entry and reports it
absent, with no intervening `set` needed. -/
theorem cache_ttl_get_semantics [LinearOrder Time] [Sub Time] (ttl : Time)
    (maxSize : Nat) (c c' : Cache Time) (k v : String) (t ts now : Time)
    (hpos : 0 < maxSize) :
    (now - t ≤ ttl →
      _cache_get ttl (_cache_set maxSize c k v t) k now
        = (some v, eraseKey (_cache_set maxSize c k v t) k ++ [(k, v, t)]))
    ∧ (List.find? (fun e => e.1 == k) c' = some (k, v, ts) → ttl < now - ts →
      _cache_get ttl c' k now = (none, eraseKey c' k)) := by
  constructor
  · intro hlive
    have hfind := find?_cache_set maxSize c k v t hpos
    simp only [_cache_get, hfind]
    rw [if_neg (not_lt.mpr hlive)]
  · intro hfind hold
    simp only [_cache_get, hfind]
    rw [if_pos hold]

/-- Witness for C5: a key set at time 0 and read at time 5 with TTL 10
is returned and refreshed; an entry inserted at time 0 and read at time
20 with TTL 10 is purged. -/
theorem cache_ttl_get_semantics_witness :
    _cache_get (10 : ℤ) (_cache_set 2 [] "A" "x" 0) "A" 5
      = (some "x", eraseKey (_cache_set 2 [] "A" "x" (0 : ℤ)) "A" ++ [("A", "x", 0)])
    ∧ _cache_get (10 : ℤ) [("B", "y", 0)] "B" 20
      = (none, eraseKey [("B", "y", (0 : ℤ))] "B") :=
  ⟨(cache_ttl_get_semantics (10 : ℤ) 2 [] [] "A" "x" 0 0 5 (by decide)).1
      (by decide),
   (cache_ttl_get_semantics (10 : ℤ) 2 [] [("B", "y", 0)] "B" "y" 0 0 20
      (by decide)).2 (by decide) (by decide)⟩

/-! ### database connection pool (`database._get_connection`) -/

/-- Bookkeeping state of the pool in `database.py`: the LIFO queue of
idle connections (head = most recently released, matching
`queue.LifoQueue`) and the `_pool_created` counter of connections ever
created.  Connections are identified by numbers. -/
structure PoolState where
  idle : List Nat
  created : Nat
deriving DecidableEq, Repr

/-- Result of the acquisition part of `database._get_connection`: either
a connection plus the successor state, or the caller blocks on
`_pool.get()` because no connection is idle and `_pool_created` has
reached `_POOL_SIZE`. -/
inductive AcquireResult where
  | acquired (conn : Nat) (s : PoolState)
  | blocked
deriving DecidableEq, Repr

/-- Acquisition: `_pool.get_nowait()` takes the most recently released
idle connection; on `queue.Empty`, a new connection (`fresh`) is created
while `_pool_created < _POOL_SIZE`, else the caller blocks. -/
def pool_acquire (size : Nat) (s : PoolState) (fresh : Nat) : AcquireResult :=
  match s.idle with
  | conn :: rest => .acquired conn ⟨rest, s.created⟩
  | [] =>
    if s.created < size then .acquired fresh ⟨[], s.created + 1⟩
    else .blocked

/-- Result of the release part (the `finally:` block) of
`database._get_connection`: the successor state and whether the
connection was closed instead of returned. -/
structure ReleaseResult where
  state : PoolState
  closed : Bool
deriving DecidableEq, Repr

/-- Release: `_pool.put_nowait(conn)` pushes the connection back unless
the queue is full (`queue.Full`), in which case `conn.close()` is called;
the source decrements `_pool_created` in neither branch. -/
def pool_release (size : Nat) (s : PoolState) (conn : Nat) : ReleaseResult :=
  if s.idle.length < size then ⟨⟨conn :: s.idle, s.created⟩, false⟩
  else ⟨s, true⟩

/-- C7 counterexample.  On a size-1 pool whose idle queue is full,
releasing a connection closes it but leaves `_pool_created` at 1: the
claimed decrement (which would have to yield 0) does not happen. -/
theorem pool_release_no_decrement_counterexample :
    (pool_release 1 ⟨[7], 1⟩ 8).closed = true
    ∧ (pool_release 1 ⟨[7], 1⟩ 8).state.created ≠ 0 := by
  decide

/-- C7 amended.  When a connection cannot be returned to the pool on
release (the idle queue is full), it is closed rather than returned, but
the pool state — including the outstanding-creation count — is left
unchanged, so no replacement can ever be created; and acquiring when the
creation count has reached capacity with no idle connection blocks,
succeeding again once some connection is released. -/
theorem pool_release_close_and_block (size : Nat) (s : PoolState)
    (conn fresh c : Nat) (hpos : 0 < size) :
    (size ≤ s.idle.length → pool_release size s conn = ⟨s, true⟩)
    ∧ pool_acquire size ⟨[], size⟩ fresh = .blocked
    ∧ pool_acquire size (pool_release size ⟨[], size⟩ c).state fresh
      = .acquired c ⟨[], size⟩ := by
  refine ⟨fun hfull => ?_, ?_, ?_⟩
  · unfold pool_release
    rw [if_neg (not_lt.mpr hfull)]
  · simp [pool_acquire]
  · unfold pool_release
    rw [if_pos (by simpa using hpos)]
    simp [pool_acquire]

/-- Witness for the amended C7: a size-2 pool with both connections
idle closes a third released connection without touching the creation
count; a size-2 pool with no idle connection blocks on acquire and
serves connection 9 after connection 9 is released. -/
theorem pool_release_close_and_block_witness :
    pool_release 2 ⟨[5, 6], 2⟩ 7 = ⟨⟨[5, 6], 2⟩, true⟩
    ∧ pool_acquire 2 ⟨[], 2⟩ 11 = .blocked
    ∧ pool_acquire 2 (pool_release 2 ⟨[], 2⟩ 9).state 11 = .acquired 9 ⟨[], 2⟩ :=
  ⟨(pool_release_close_and_block 2 ⟨[5, 6], 2⟩ 7 11 9 (by decide)).1 (by decide),
   (pool_release_close_and_block 2 ⟨[], 2⟩ 7 11 9 (by decide)).2.1,
   (pool_release_close_and_block 2 ⟨[], 2⟩ 7 11 9 (by decide)).2.2⟩

/-! ### job registry (`main.analysis_jobs`, `main.cancel_job`) -/

/-- Job status strings of `main.py`. -/
inductive JobStatus where
  | queued | running | cancelled | done | error
deriving DecidableEq, Repr

/-- Job phase strings of `main.py`. -/
inductive JobPhase where
  | queued | fetching | checking | finalizing | done | error | cancelled
deriving DecidableEq, Repr

/-- The mutable per-job record kept in `analysis_jobs` (the `updated_at`
wall-clock stamp is irrelevant to the claims and omitted). -/
structure Job where
  status : JobStatus
  phase : JobPhase
  processed : Nat
  total : Option Nat
  message : String
  error : Option String
deriving DecidableEq, Repr

/-- The check `job.get("status") in ("done", "error", "cancelled")` of
`cancel_job`. -/
def terminalStatus (s : JobStatus) : Bool :=
  match s with
  | .done | .error | .cancelled => true
  | _ => false

/-- The in-memory `analysis_jobs` dict as an association list. -/
abbrev JobTable := List (String × Job)

/-- Dictionary lookup `analysis_jobs.get(job_id)`. -/
def lookupJob (jobs : JobTable) (jid : String) : Option Job :=
  (jobs.find? (fun p => p.1 == jid)).map (·.2)

/-- Field updates `cancel_job` applies to a live job record:
`status = "cancelled"`, `phase = "cancelled"`,
`message = "Cancelled by user"`.  All other fields are untouched. -/
def applyCancel (job : Job) : Job :=
  { job with status := .cancelled, phase := .cancelled,
             message := "Cancelled by user" }

/-- Embedding of `main.cancel_job`: a missing job or a job already in a
terminal status yields `False` and no change; otherwise the record is
mutated by `applyCancel` and `True` is returned. -/
def cancel_job (jobs : JobTable) (jid : String) : Bool × JobTable :=
  match lookupJob jobs jid with
  | none => (false, jobs)
  | some job =>
    if terminalStatus job.status then (false, jobs)
    else
      (true, jobs.map fun p => if p.1 == jid then (p.1, applyCancel job) else p)

/-- C8.  `cancel_job` returns `True` exactly when the job exists and its
current status is not terminal (`done`, `error` or `cancelled`), and
whenever it returns `False` the registry — in particular the job's
status — is left unchanged; a `running` (or `queued`) job is therefore
cancellable and a `done` job is not. -/
theorem lookupJob_map_update (jid : String) (newJob : Job) :
    ∀ (jobs : JobTable) (job : Job), lookupJob jobs jid = some job →
      lookupJob (jobs.map fun p => if p.1 == jid then (p.1, newJob) else p) jid
        = some newJob := by
  intro jobs
  induction jobs with
  | nil => intro job h; simp [lookupJob] at h
  | cons p rest ih =>
    intro job h
    by_cases hk : (p.1 == jid) = true
    · simp only [List.map_cons, hk, if_true]
      unfold lookupJob
      rw [List.find?_cons_of_pos _ (by simpa using hk)]
      rfl
    · have hk' : (p.1 == jid) = false := by simpa using hk
      unfold lookupJob at h
      rw [List.find?_cons_of_neg _ (by simp [hk'])] at h
      simp only [List.map_cons, hk', Bool.false_eq_true, if_false]
      unfold lookupJob
      rw [List.find?_cons_of_neg _ (by simp [hk'])]
      exact ih job h

theorem cancel_job_of_live (jobs : JobTable) (jid : String) (job : Job)
    (hjob : lookupJob jobs jid = some job)
    (hterm : terminalStatus job.status = false) :
    cancel_job jobs jid
      = (true, jobs.map fun p => if p.1 == jid then (p.1, applyCancel job) else p) := by
  unfold cancel_job
  rw [hjob]
  show (if terminalStatus job.status = true then ((false, jobs) : Bool × JobTable)
        else (true, jobs.map fun p => if p.1 == jid then (p.1, applyCancel job) else p))
      = _
  rw [if_neg (by simp [hterm])]

/-- C8.  `cancel_job` returns `True` exactly when the job exists and its
current status is not terminal (`done`, `error` or `cancelled`);
whenever it returns `False` the registry — in particular the job's
status — is left unchanged; and whenever the job exists in a
non-terminal status, the call transitions that job's registry record to
`cancelled` status and phase (via `applyCancel`).  A `running` (or
`queued`) job is therefore cancellable and a `done` job is not. -/
theorem cancel_job_spec (jobs : JobTable) (jid : String) :
    ((cancel_job jobs jid).1 = true
      ↔ ∃ job, lookupJob jobs jid = some job ∧ terminalStatus job.status = false)
    ∧ ((cancel_job jobs jid).1 = false → (cancel_job jobs jid).2 = jobs)
    ∧ (∀ job, lookupJob jobs jid = some job → terminalStatus job.status = false →
        (cancel_job jobs jid).1 = true
        ∧ lookupJob (cancel_job jobs jid).2 jid = some (applyCancel job)
        ∧ (applyCancel job).status = .cancelled
        ∧ (applyCancel job).phase = .cancelled) := by
  refine ⟨?_, ?_, ?_⟩
  · unfold cancel_job
    cases h : lookupJob jobs jid with
    | none => simp
    | some job =>
      by_cases ht : terminalStatus job.status = true
      · simp [ht]
      · have ht' : terminalStatus job.status = false := by
          simpa using ht
        simp [ht']
  · intro hfalse
    unfold cancel_job at hfalse ⊢
    cases h : lookupJob jobs jid with
    | none => rfl
    | some job =>
      rw [h] at hfalse
      by_cases ht : terminalStatus job.status = true
      · simp [ht]
      · simp [ht] at hfalse
  · intro job hjob hterm
    rw [cancel_job_of_live jobs jid job hjob hterm]
    exact ⟨rfl, lookupJob_map_update jid (applyCancel job) jobs job hjob, rfl, rfl⟩

/-- Witness for C8: in a registry with a `done` job "d" and a `running`
job "r", cancelling "d" returns `False` and leaves the registry intact,
while cancelling "r" returns `True` and rewrites job "r" to `cancelled`
status and phase with the "Cancelled by user" message. -/
theorem cancel_job_spec_witness :
    (cancel_job
        [("d", ⟨.done, .done, 3, some 3, "Completed", none⟩),
         ("r", ⟨.running, .checking, 1, some 3, "Checking", none⟩)] "d").1 = false
    ∧ (cancel_job
        [("d", ⟨.done, .done, 3, some 3, "Completed", none⟩),
         ("r", ⟨.running, .checking, 1, some 3, "Checking", none⟩)] "d").2
      = [("d", ⟨.done, .done, 3, some 3, "Completed", none⟩),
         ("r", ⟨.running, .checking, 1, some 3, "Checking", none⟩)]
    ∧ (cancel_job
        [("d", ⟨.done, .done, 3, some 3, "Completed", none⟩),
         ("r", ⟨.running, .checking, 1, some 3, "Checking", none⟩)] "r").1 = true
    ∧ lookupJob (cancel_job
        [("d", ⟨.done, .done, 3, some 3, "Completed", none⟩),
         ("r", ⟨.running, .checking, 1, some 3, "Checking", none⟩)] "r").2 "r"
      = some ⟨.cancelled, .cancelled, 1, some 3, "Cancelled by user", none⟩ := by
  refine ⟨by decide, ?_, ?_, ?_⟩
  · exact (cancel_job_spec
      [("d", ⟨.done, .done, 3, some 3, "Completed", none⟩),
       ("r", ⟨.running, .checking, 1, some 3, "Checking", none⟩)] "d").2.1 (by decide)
  · exact ((cancel_job_spec
      [("d", ⟨.done, .done, 3, some 3, "Completed", none⟩),
       ("r", ⟨.running, .checking, 1, some 3, "Checking", none⟩)] "r").2.2
      ⟨.running, .checking, 1, some 3, "Checking", none⟩ (by decide) (by decide)).1
  · exact ((cancel_job_spec
      [("d", ⟨.done, .done, 3, some 3, "Completed", none⟩),
       ("r", ⟨.running, .checking, 1, some 3, "Checking", none⟩)] "r").2.2
      ⟨.running, .checking, 1, some 3, "Checking", none⟩ (by decide)
      (by decide)).2.1.trans (by decide)

/-! ### database persistence (`database.insert_file`, `clear_category`,
`get_statistics`) -/

/-- A row of the SQLite `files` table (the `id` and `analyzed_at`
columns are irrelevant to the claims and omitted). -/
structure FileRecord where
  file_name : String
  category : String
  depicts : Option String
  has_depicts : Bool
deriving DecidableEq, Repr

/-- The `files` table in insertion order. -/
abbrev DB := List FileRecord

/-- Embedding of `database.insert_file`: `INSERT ... ON CONFLICT
(file_name, category) DO UPDATE` — an upsert keyed on the pair. -/
def insert_file (db : DB) (file_name category : String)
    (depicts : Option String) (has_depicts : Bool) : DB :=
  if db.any (fun r => r.file_name == file_name && r.category == category) then
    db.map fun r =>
      if r.file_name == file_name && r.category == category then
        { r with depicts := depicts, has_depicts := has_depicts }
      else r
  else db ++ [⟨file_name, category, depicts, has_depicts⟩]

/-- Embedding of `database.clear_category`:
`DELETE FROM files WHERE category = ?`. -/
def clear_category (db : DB) (category : String) : DB :=
  db.filter fun r => r.category != category

/-- Result dict of `database.get_statistics`. -/
structure Stats where
  total : Nat
  with_depicts : Nat
  without_depicts : Nat
deriving DecidableEq, Repr

/-- Embedding of `database.get_statistics`: `COUNT(*)` plus the two
`SUM(CASE WHEN has_depicts ...)` aggregates over the category's rows
(zero row count yields all-zero statistics, as in the source). -/
def get_statistics (db : DB) (category : String) : Stats :=
  let recs := db.filter fun r => r.category == category
  ⟨recs.length, (recs.filter fun r => r.has_depicts).length,
    (recs.filter fun r => !r.has_depicts).length⟩

/-! ### analysis pipeline (`main.analyze_category` driven by
`main._run_analysis_job`) -/

/-- Behaviour of `api.fetch_category_files` for the run, including its
own retries: the final file list, a `ValueError` (nonexistent category),
or a `RequestException` surviving the retry budget. -/
inductive FetchResult where
  | ok (files : List String)
  | valueError (msg : String)
  | requestError (msg : String)

/-- Behaviour of one item's `api.check_depicts` call, including its own
retries: the `(has_depicts, qids)` pair, or an exception. -/
inductive CheckOutcome where
  | ok (has : Bool) (qids : List String)
  | raise

/-- Behaviour of one item's `api.resolve_labels` call, including its own
retries: `ok lab` where `lab q` models `labels.get(q, q)` of the
returned dict, or an exception. -/
inductive ResolveOutcome where
  | ok (labels : String → String)
  | raise

/-- Environment of one job run: the fetch outcome, the per-item check
and resolve outcomes (indexed by 0-based item position), and the state
of the job's cancellation flag as observed by the j-th
`is_job_cancelled` checkpoint of the run (hook calls in order, then the
final check in `_run_analysis_job`). -/
structure PipelineEnv where
  fetch : FetchResult
  check : Nat → CheckOutcome
  resolve : Nat → ResolveOutcome
  cancelledAt : Nat → Bool

/-- Category-name normalization at the top of `analyze_category`. -/
def normalizeCategory (category_name : String) : String :=
  if category_name.startsWith "Category:" then category_name
  else "Category:" ++ category_name

/-- The record stored for item `i` by the body of the checking loop:
on a check or resolve exception the `except` branch stores
`(file, category, None, False)`; with no QIDs the depicts string stays
`None`; otherwise the labels `labels.get(qid, qid)` are joined with
`", "`. -/
def itemRecord (env : PipelineEnv) (i : Nat) (file cat : String) : FileRecord :=
  match env.check i with
  | .raise => ⟨file, cat, none, false⟩
  | .ok has qids =>
    if qids.isEmpty then ⟨file, cat, none, has⟩
    else
      match env.resolve i with
      | .raise => ⟨file, cat, none, false⟩
      | .ok lab => ⟨file, cat, some (String.intercalate ", " (qids.map lab)), has⟩

/-- Body of one iteration of the checking loop of `analyze_category`
(the `try`/`except` block): check, resolve labels when QIDs are present,
and upsert the per-item row; any exception falls back to inserting the
absent-labels row. -/
def processItem (env : PipelineEnv) (i : Nat) (file cat : String) (db : DB) : DB :=
  match env.check i with
  | .raise => insert_file db file cat none false
  | .ok has qids =>
    if qids.isEmpty then insert_file db file cat none has
    else
      match env.resolve i with
      | .raise => insert_file db file cat none false
      | .ok lab =>
        insert_file db file cat (some (String.intercalate ", " (qids.map lab))) has

/-- The `_set_job` merge performed by the progress hook at the top of
each checking-loop iteration (`phase="checking"`, `processed=i+1`,
`total=len(files)`), also used for the pre-loop `processed=0` hook. -/
def setChecking (job : Job) (processed total : Nat) : Job :=
  { job with phase := .checking, message := "Checking depicts statements",
             processed := processed, total := some total }

/-- The checking loop of `analyze_category` under the cancellation hook
of `_run_analysis_job`: before item `i` the hook at checkpoint `2 + i`
either observes the cancellation flag (raising `_AnalysisCancelled`, so
the loop stops — third component `true`) or merges the progress fields;
then the item is processed and persisted. -/
def checkLoop (env : PipelineEnv) (cat : String) (total : Nat) :
    List String → Nat → Job → DB → Job × DB × Bool
  | [], _, job, db => (job, db, false)
  | file :: rest, i, job, db =>
    if env.cancelledAt (2 + i) then (job, db, true)
    else
      checkLoop env cat total rest (i + 1) (setChecking job (i + 1) total)
        (processItem env i file cat db)

/-- The `_set_job(status="running", phase="fetching",
message="Starting analysis")` call at the start of
`_run_analysis_job`. -/
def setRunning (job : Job) : Job :=
  { job with status := .running, phase := .fetching,
             message := "Starting analysis" }

/-- The fetch-phase progress-hook merge of `analyze_category`. -/
def setFetching (job : Job) : Job :=
  { job with phase := .fetching, message := "Fetching files from category",
             processed := 0, total := none }

/-- The `_set_job(status="error", error=..., phase="error")` merge of
`_run_analysis_job` for a whole-job failure. -/
def setJobError (job : Job) (msg : String) : Job :=
  { job with status := .error, phase := .error, error := some msg }

/-- The finalizing progress-hook merge of `analyze_category`. -/
def setFinalizing (job : Job) (total : Nat) : Job :=
  { job with phase := .finalizing, message := "Finalizing results",
             processed := total, total := some total }

/-- The final `_set_job(status="done", phase="done",
processed=job_total(job_id), message="Completed")` merge, where
`job_total` reads `int(job.get("total") or 0)`. -/
def setDone (job : Job) : Job :=
  { job with status := .done, phase := .done, processed := job.total.getD 0,
             message := "Completed" }

/-- Embedding of `main._run_analysis_job` running `main.analyze_category`
with its cancellation-aware progress hook: normalize the category, clear
its previous rows, fetch (whole-job errors populate the `error` field),
run the checking loop, finalize, and mark the job done.  Cancellation
checkpoints are numbered in execution order: 0 = fetch-phase hook, 1 =
pre-loop checking hook (or, on the error paths, the `is_job_cancelled`
test after `analyze_category` returns), `2 + i` = hook before item `i`,
`2 + n` = finalizing hook, `3 + n` = the final `is_job_cancelled` test.
When a checkpoint observes the flag the registry record already carries
`cancel_job`'s `applyCancel` mutation and receives no further merge. -/
def _run_analysis_job (env : PipelineEnv) (category : String) (job0 : Job)
    (db0 : DB) : Job × DB :=
  let job1 := setRunning job0
  let cat := normalizeCategory category
  let db1 := clear_category db0 cat
  if env.cancelledAt 0 then (applyCancel job1, db1) else
  let job2 := setFetching job1
  match env.fetch with
  | .valueError msg =>
    if env.cancelledAt 1 then (applyCancel job2, db1)
    else (setJobError job2 msg, db1)
  | .requestError msg =>
    if env.cancelledAt 1 then (applyCancel job2, db1)
    else (setJobError job2 ("Failed to fetch category: " ++ msg), db1)
  | .ok files =>
    if files.isEmpty then
      if env.cancelledAt 1 then (applyCancel job2, db1)
      else (setJobError job2 "No files found in category", db1)
    else
      if env.cancelledAt 1 then (applyCancel job2, db1) else
      match checkLoop env cat files.length files 0
          (setChecking job2 0 files.length) db1 with
      | (job', db', true) => (applyCancel job', db')
      | (job', db', false) =>
        if env.cancelledAt (2 + files.length) then (applyCancel job', db') else
        let job4 := setFinalizing job' files.length
        if env.cancelledAt (3 + files.length) then (applyCancel job4, db')
        else (setDone job4, db')

theorem insert_file_append (db : DB) (name cat : String) (d : Option String)
    (h : Bool) (hfresh : ∀ r ∈ db, ¬(r.file_name = name ∧ r.category = cat)) :
    insert_file db name cat d h = db ++ [⟨name, cat, d, h⟩] := by
  unfold insert_file
  rw [if_neg]
  intro hany
  rw [List.any_eq_true] at hany
  obtain ⟨r, hr, hp⟩ := hany
  rw [Bool.and_eq_true, beq_iff_eq, beq_iff_eq] at hp
  exact hfresh r hr hp

theorem itemRecord_file_name (env : PipelineEnv) (i : Nat) (file cat : String) :
    (itemRecord env i file cat).file_name = file := by
  unfold itemRecord
  cases env.check i with
  | raise => rfl
  | ok has qids =>
    by_cases hq : qids.isEmpty
    · simp [hq]
    · cases env.resolve i with
      | raise => simp [hq]
      | ok lab => simp [hq]

theorem itemRecord_category (env : PipelineEnv) (i : Nat) (file cat : String) :
    (itemRecord env i file cat).category = cat := by
  unfold itemRecord
  cases env.check i with
  | raise => rfl
  | ok has qids =>
    by_cases hq : qids.isEmpty
    · simp [hq]
    · cases env.resolve i with
      | raise => simp [hq]
      | ok lab => simp [hq]

theorem processItem_append (env : PipelineEnv) (i : Nat) (file cat : String)
    (db : DB) (hfresh : ∀ r ∈ db, ¬(r.file_name = file ∧ r.category = cat)) :
    processItem env i file cat db = db ++ [itemRecord env i file cat] := by
  unfold processItem itemRecord
  cases env.check i with
  | raise => exact insert_file_append db file cat none false hfresh
  | ok has qids =>
    by_cases hq : qids.isEmpty
    · simp only [if_pos hq]
      exact insert_file_append db file cat none has hfresh
    · simp only [if_neg hq]
      cases env.resolve i with
      | raise => exact insert_file_append db file cat none false hfresh
      | ok lab => exact insert_file_append db file cat _ has hfresh

/-- Per-item records of the checking loop, in listing order, starting at
item index `i`. -/
def itemRecords (env : PipelineEnv) (cat : String) :
    List String → Nat → List FileRecord
  | [], _ => []
  | file :: rest, i => itemRecord env i file cat :: itemRecords env cat rest (i + 1)

theorem itemRecords_length (env : PipelineEnv) (cat : String) :
    ∀ (files : List String) (i : Nat),
      (itemRecords env cat files i).length = files.length := by
  intro files
  induction files with
  | nil => intro i; rfl
  | cons file rest ih => intro i; simp [itemRecords, ih]

theorem mem_itemRecords_category (env : PipelineEnv) (cat : String) :
    ∀ (files : List String) (i : Nat) (r : FileRecord),
      r ∈ itemRecords env cat files i → r.category = cat := by
  intro files
  induction files with
  | nil => intro i r hr; simp [itemRecords] at hr
  | cons file rest ih =>
    intro i r hr
    rw [itemRecords, List.mem_cons] at hr
    rcases hr with hr | hr
    · rw [hr]; exact itemRecord_category env i file cat
    · exact ih (i + 1) r hr

theorem filter_itemRecords (env : PipelineEnv) (cat : String)
    (files : List String) (i : Nat) :
    (itemRecords env cat files i).filter (fun r => r.category == cat)
      = itemRecords env cat files i := by
  rw [List.filter_eq_self]
  intro r hr
  rw [beq_iff_eq]
  exact mem_itemRecords_category env cat files i r hr

theorem itemRecords_getElem? (env : PipelineEnv) (cat : String) :
    ∀ (files : List String) (i j : Nat),
      (itemRecords env cat files i)[j]?
        = (files[j]?).map fun f => itemRecord env (i + j) f cat := by
  intro files
  induction files with
  | nil => intro i j; simp [itemRecords]
  | cons file rest ih =>
    intro i j
    cases j with
    | zero => simp [itemRecords]
    | succ j =>
      rw [itemRecords]
      simp only [List.getElem?_cons_succ]
      rw [ih (i + 1) j]
      have harith : i + (j + 1) = i + 1 + j := by omega
      rw [harith]

theorem filter_clear_category (db : DB) (cat : String) :
    (clear_category db cat).filter (fun r => r.category == cat) = [] := by
  rw [List.filter_eq_nil_iff]
  intro r hr
  have hmem := List.of_mem_filter hr
  simp only [bne_iff_ne, ne_eq] at hmem
  simp [hmem]

theorem setChecking_setChecking (job : Job) (p q t t' : Nat) :
    setChecking (setChecking job p t) q t' = setChecking job q t' := rfl

theorem checkLoop_complete (env : PipelineEnv) (cat : String) (total : Nat) :
    ∀ (files : List String) (i : Nat) (job : Job) (db : DB),
      (∀ idx, idx < files.length → env.cancelledAt (2 + (i + idx)) = false) →
      files.Nodup →
      (∀ f ∈ files, ∀ r ∈ db, ¬(r.file_name = f ∧ r.category = cat)) →
      checkLoop env cat total files i job db
        = ((if files.isEmpty then job
            else setChecking job (i + files.length) total),
           db ++ itemRecords env cat files i, false) := by
  intro files
  induction files with
  | nil => intro i job db _ _ _; simp [checkLoop, itemRecords]
  | cons file rest ih =>
    intro i job db hcanc hnodup hfresh
    have hc0 : env.cancelledAt (2 + i) = false := by
      have := hcanc 0 (by simp)
      simpa using this
    rw [checkLoop, hc0]
    simp only [Bool.false_eq_true, if_false]
    rw [processItem_append env i file cat db
      (hfresh file (List.mem_cons_self file rest))]
    have hfresh' : ∀ f ∈ rest, ∀ r ∈ db ++ [itemRecord env i file cat],
        ¬(r.file_name = f ∧ r.category = cat) := by
      intro f hf r hr
      rw [List.mem_append] at hr
      rcases hr with hr | hr
      · exact hfresh f (List.mem_cons_of_mem file hf) r hr
      · rw [List.mem_singleton] at hr
        subst hr
        rw [itemRecord_file_name]
        rintro ⟨hname, -⟩
        exact (List.nodup_cons.mp hnodup).1 (hname ▸ hf)
    have hcanc' : ∀ idx, idx < rest.length →
        env.cancelledAt (2 + (i + 1 + idx)) = false := by
      intro idx hidx
      have := hcanc (idx + 1) (by simpa using Nat.succ_lt_succ hidx)
      have harith : i + (idx + 1) = i + 1 + idx := by omega
      rwa [harith] at this
    rw [ih (i + 1) (setChecking job (i + 1) total)
      (db ++ [itemRecord env i file cat]) hcanc' (List.Nodup.of_cons hnodup)
      hfresh']
    cases rest with
    | nil => simp [itemRecords]
    | cons g gs =>
      rw [setChecking_setChecking]
      have harith : i + 1 + (g :: gs).length = i + (file :: g :: gs).length := by
        simp; omega
      rw [harith]
      simp [itemRecords]

theorem checkLoop_cancelled (env : PipelineEnv) (cat : String) (total k : Nat)
    (hcanc : ∀ j, env.cancelledAt j = decide (k + 2 ≤ j)) :
    ∀ (files : List String) (i : Nat) (job : Job) (db : DB),
      i ≤ k → k < i + files.length → files.Nodup →
      (∀ f ∈ files, ∀ r ∈ db, ¬(r.file_name = f ∧ r.category = cat)) →
      checkLoop env cat total files i job db
        = ((if i = k then job else setChecking job k total),
           db ++ itemRecords env cat (files.take (k - i)) i, true) := by
  intro files
  induction files with
  | nil => intro i job db hik hlt _ _; simp at hlt; omega
  | cons file rest ih =>
    intro i job db hik hlt hnodup hfresh
    by_cases heq : i = k
    · have hstop : env.cancelledAt (2 + i) = true := by
        rw [hcanc]
        exact decide_eq_true (by omega)
      rw [checkLoop, hstop]
      subst heq
      simp [itemRecords]
    · have hlt' : i < k := lt_of_le_of_ne hik heq
      have hgo : env.cancelledAt (2 + i) = false := by
        rw [hcanc]
        exact decide_eq_false (by omega)
      rw [checkLoop, hgo]
      simp only [Bool.false_eq_true, if_false]
      rw [processItem_append env i file cat db
        (hfresh file (List.mem_cons_self file rest))]
      have hfresh' : ∀ f ∈ rest, ∀ r ∈ db ++ [itemRecord env i file cat],
          ¬(r.file_name = f ∧ r.category = cat) := by
        intro f hf r hr
        rw [List.mem_append] at hr
        rcases hr with hr | hr
        · exact hfresh f (List.mem_cons_of_mem file hf) r hr
        · rw [List.mem_singleton] at hr
          subst hr
          rw [itemRecord_file_name]
          rintro ⟨hname, -⟩
          exact (List.nodup_cons.mp hnodup).1 (hname ▸ hf)
      rw [ih (i + 1) (setChecking job (i + 1) total)
        (db ++ [itemRecord env i file cat]) (by omega)
        (by simp at hlt ⊢; omega) (List.Nodup.of_cons hnodup) hfresh']
      have htake : (file :: rest).take (k - i) = file :: rest.take (k - (i + 1)) := by
        have : k - i = (k - (i + 1)) + 1 := by omega
        rw [this, List.take_succ_cons]
      rw [htake]
      by_cases heq1 : i + 1 = k
      · rw [if_pos heq1, heq1]
        simp [itemRecords, if_neg heq]
      · rw [if_neg heq1, setChecking_setChecking, if_neg heq]
        simp [itemRecords]

theorem fresh_clear (db : DB) (cat : String) (files : List String) :
    ∀ f ∈ files, ∀ r ∈ clear_category db cat,
      ¬(r.file_name = f ∧ r.category = cat) := by
  intro f _ r hr hcontra
  have hmem := List.of_mem_filter hr
  simp only [bne_iff_ne, ne_eq] at hmem
  exact hmem hcontra.2

theorem run_ok_eq (env : PipelineEnv) (category : String) (job0 : Job) (db0 : DB)
    (files : List String) (hfetch : env.fetch = .ok files) (hne : files ≠ [])
    (hnodup : files.Nodup) (hnc : ∀ j, env.cancelledAt j = false) :
    _run_analysis_job env category job0 db0
      = (setDone (setFinalizing
           (setChecking (setFetching (setRunning job0)) files.length files.length)
           files.length),
         clear_category db0 (normalizeCategory category)
           ++ itemRecords env (normalizeCategory category) files 0) := by
  have hempty : files.isEmpty = false := by
    cases files with
    | nil => exact absurd rfl hne
    | cons f fs => rfl
  simp only [_run_analysis_job, hfetch, hnc, Bool.false_eq_true, if_false, hempty]
  rw [checkLoop_complete env (normalizeCategory category) files.length files 0
    (setChecking (setFetching (setRunning job0)) 0 files.length)
    (clear_category db0 (normalizeCategory category))
    (fun idx _ => hnc _) hnodup
    (fresh_clear db0 (normalizeCategory category) files)]
  simp only [hempty, Bool.false_eq_true, if_false, setChecking_setChecking,
    Nat.zero_add, hnc]

/-- Initial job record allocated by `start_analysis_job`. -/
def jobInit : Job := ⟨.queued, .queued, 0, none, "Queued", none⟩

/-- Environment of the 3-item scenario: item 1 has a depicts statement
referencing Q1 (label "Cat"), item 2 has none, item 3's check call fails
permanently; no cancellation. -/
def env3 : PipelineEnv where
  fetch := .ok ["File:A.jpg", "File:B.jpg", "File:C.jpg"]
  check := fun i =>
    if i = 0 then .ok true ["Q1"] else if i = 1 then .ok false [] else .raise
  resolve := fun _ => .ok fun q => if q == "Q1" then "Cat" else q
  cancelledAt := fun _ => false

/-- C2.  With a successful nonempty fetch and no cancellation, the run
always completes: the job ends `done` with its `error` field untouched,
the category's stored rows are exactly one per item in listing order,
and any item whose check call raises — or whose resolve call raises
after a check reporting QIDs — is stored with absent labels and
presence flag `false` while the remaining items are still processed.
In particular the 3-item scenario yields statistics
`{total: 3, with: 1, without: 2}` with item 3 stored with absent
labels. -/
theorem per_item_failures_isolated (env : PipelineEnv) (category : String)
    (job0 : Job) (db0 : DB) (files : List String)
    (hfetch : env.fetch = .ok files) (hne : files ≠ [])
    (hnodup : files.Nodup) (hnc : ∀ j, env.cancelledAt j = false) :
    (_run_analysis_job env category job0 db0).1.status = .done
    ∧ (_run_analysis_job env category job0 db0).1.error = job0.error
    ∧ (_run_analysis_job env category job0 db0).2.filter
        (fun r => r.category == normalizeCategory category)
      = itemRecords env (normalizeCategory category) files 0
    ∧ (∀ j file, files[j]? = some file →
        (env.check j = .raise
          ∨ ∃ has qids, env.check j = .ok has qids ∧ qids ≠ []
              ∧ env.resolve j = .raise) →
        ((_run_analysis_job env category job0 db0).2.filter
            (fun r => r.category == normalizeCategory category))[j]?
          = some ⟨file, normalizeCategory category, none, false⟩)
    ∧ get_statistics (_run_analysis_job env3 "Animals" jobInit []).2
        "Category:Animals" = ⟨3, 1, 2⟩
    ∧ (_run_analysis_job env3 "Animals" jobInit []).2.filter
        (fun r => r.file_name == "File:C.jpg")
      = [⟨"File:C.jpg", "Category:Animals", none, false⟩] := by
  have hrun := run_ok_eq env category job0 db0 files hfetch hne hnodup hnc
  have hfilter : (_run_analysis_job env category job0 db0).2.filter
      (fun r => r.category == normalizeCategory category)
      = itemRecords env (normalizeCategory category) files 0 := by
    rw [hrun]
    simp only [List.filter_append, filter_clear_category,
      filter_itemRecords, List.nil_append]
  refine ⟨by rw [hrun]; rfl, by rw [hrun]; rfl, hfilter, ?_, by decide, by decide⟩
  intro j file hj hcase
  rw [hfilter, itemRecords_getElem? env (normalizeCategory category) files 0 j,
    hj, Nat.zero_add]
  rcases hcase with hc | ⟨has, qids, hc, hqne, hr⟩
  · simp [itemRecord, hc]
  · have hqe : qids.isEmpty = false := by
      cases qids with
      | nil => exact absurd rfl hqne
      | cons q qs => rfl
    simp [itemRecord, hc, hqe, hr]

/-- Witness for C2: the general part applied to the concrete 3-item
environment — job done, error untouched, three rows stored, and item 3
(index 2, whose check raises) stored with absent labels. -/
theorem per_item_failures_isolated_witness :
    (_run_analysis_job env3 "Animals" jobInit []).1.status = .done
    ∧ (_run_analysis_job env3 "Animals" jobInit []).1.error = jobInit.error
    ∧ ((_run_analysis_job env3 "Animals" jobInit []).2.filter
        (fun r => r.category == normalizeCategory "Animals"))[2]?
      = some ⟨"File:C.jpg", normalizeCategory "Animals", none, false⟩ := by
  have h := per_item_failures_isolated env3 "Animals" jobInit []
    ["File:A.jpg", "File:B.jpg", "File:C.jpg"] rfl (by decide) (by decide)
    (fun j => rfl)
  exact ⟨h.1, h.2.1, h.2.2.2.1 2 "File:C.jpg" (by decide) (Or.inl rfl)⟩

/-- C3.  When the cancellation flag is first observed at the checkpoint
before item `k + 1` (that is, the job is cancelled after item `k` of `n`
has been processed and persisted, `1 ≤ k ≤ n`), the run stops without
persisting any further item: the job ends in `cancelled`
status and phase with `processed = k`, and the category's stored rows
are exactly the `k` records of the already-processed items. -/
theorem cancellation_checkpoint_spec (env : PipelineEnv) (category : String)
    (job0 : Job) (db0 : DB) (files : List String) (k : Nat)
    (hfetch : env.fetch = .ok files) (hk1 : 1 ≤ k) (hkn : k ≤ files.length)
    (hnodup : files.Nodup)
    (hcanc : ∀ j, env.cancelledAt j = decide (k + 2 ≤ j)) :
    (_run_analysis_job env category job0 db0).1.status = .cancelled
    ∧ (_run_analysis_job env category job0 db0).1.phase = .cancelled
    ∧ (_run_analysis_job env category job0 db0).1.processed = k
    ∧ (_run_analysis_job env category job0 db0).2.filter
        (fun r => r.category == normalizeCategory category)
      = itemRecords env (normalizeCategory category) (files.take k) 0
    ∧ ((_run_analysis_job env category job0 db0).2.filter
        (fun r => r.category == normalizeCategory category)).length = k := by
  have hne : files ≠ [] := by
    intro hnil
    rw [hnil] at hkn
    simp at hkn
    omega
  have hempty : files.isEmpty = false := by
    cases files with
    | nil => exact absurd rfl hne
    | cons f fs => rfl
  have hc0 : env.cancelledAt 0 = false := by
    rw [hcanc]; exact decide_eq_false (by omega)
  have hc1 : env.cancelledAt 1 = false := by
    rw [hcanc]; exact decide_eq_false (by omega)
  have hrun : _run_analysis_job env category job0 db0
      = (applyCancel (setChecking (setFetching (setRunning job0)) k files.length),
         clear_category db0 (normalizeCategory category)
           ++ itemRecords env (normalizeCategory category) (files.take k) 0) := by
    rcases lt_or_eq_of_le hkn with hlt | heq
    · simp only [_run_analysis_job, hfetch, hc0, hc1, Bool.false_eq_true,
        if_false, hempty]
      rw [checkLoop_cancelled env (normalizeCategory category) files.length k
        hcanc files 0 (setChecking (setFetching (setRunning job0)) 0 files.length)
        (clear_category db0 (normalizeCategory category)) (by omega)
        (by omega) hnodup
        (fresh_clear db0 (normalizeCategory category) files)]
      have hk0 : ¬(0 = k) := by omega
      simp only [hk0, if_false, setChecking_setChecking, Nat.sub_zero]
    · simp only [_run_analysis_job, hfetch, hc0, hc1, Bool.false_eq_true,
        if_false, hempty]
      rw [checkLoop_complete env (normalizeCategory category) files.length files 0
        (setChecking (setFetching (setRunning job0)) 0 files.length)
        (clear_category db0 (normalizeCategory category))
        (fun idx hidx => by rw [hcanc]; exact decide_eq_false (by omega))
        hnodup (fresh_clear db0 (normalizeCategory category) files)]
      have hcend : env.cancelledAt (2 + files.length) = true := by
        rw [hcanc]; exact decide_eq_true (by omega)
      simp only [hempty, Bool.false_eq_true, if_false, setChecking_setChecking,
        Nat.zero_add, hcend, if_true, heq]
      rw [← heq, List.take_of_length_le (by omega)]
  have hfilter : (_run_analysis_job env category job0 db0).2.filter
      (fun r => r.category == normalizeCategory category)
      = itemRecords env (normalizeCategory category) (files.take k) 0 := by
    rw [hrun]
    simp only [List.filter_append, filter_clear_category,
      filter_itemRecords, List.nil_append]
  refine ⟨by rw [hrun]; rfl, by rw [hrun]; rfl, by rw [hrun]; rfl, hfilter, ?_⟩
  rw [hfilter, itemRecords_length]
  rw [List.length_take]
  omega

/-- Environment of the cancel-after-1-of-10 scenario: ten items whose
checks report no statement; the cancellation flag is set between the
first item's hook (checkpoint 2) and the second item's hook
(checkpoint 3). -/
def env10 : PipelineEnv where
  fetch := .ok ["File:0.jpg", "File:1.jpg", "File:2.jpg", "File:3.jpg",
    "File:4.jpg", "File:5.jpg", "File:6.jpg", "File:7.jpg", "File:8.jpg",
    "File:9.jpg"]
  check := fun _ => .ok false []
  resolve := fun _ => .raise
  cancelledAt := fun j => decide (3 ≤ j)

/-- Witness for C3: cancel requested after item 1 of 10 is processed —
the job ends cancelled with `processed = 1` and exactly one stored
row. -/
theorem cancellation_checkpoint_spec_witness :
    (_run_analysis_job env10 "Tens" jobInit []).1.status = .cancelled
    ∧ (_run_analysis_job env10 "Tens" jobInit []).1.processed = 1
    ∧ ((_run_analysis_job env10 "Tens" jobInit []).2.filter
        (fun r => r.category == normalizeCategory "Tens")).length = 1 := by
  have h := cancellation_checkpoint_spec env10 "Tens" jobInit []
    ["File:0.jpg", "File:1.jpg", "File:2.jpg", "File:3.jpg", "File:4.jpg",
     "File:5.jpg", "File:6.jpg", "File:7.jpg", "File:8.jpg", "File:9.jpg"] 1
    rfl (by decide) (by decide) (by decide) (fun j => rfl)
  exact ⟨h.1, h.2.2.1, h.2.2.2.2⟩

/-- C10.  `analyze_category` clears the category's previously stored
rows before the fetch phase: a run whose fetch fails (nonexistent
category, exhausted retries, or zero items) ends in `error` status with
a populated `error` field, while the persistence layer already holds no
rows for the category — the prior results are erased, so failure is not
atomic with respect to the persistence layer. -/
theorem clear_precedes_fetch_failure (env : PipelineEnv) (category : String)
    (job0 : Job) (db0 : DB) (hnc : ∀ j, env.cancelledAt j = false)
    (hfail : match env.fetch with | .ok files => files = [] | _ => True) :
    (_run_analysis_job env category job0 db0).2
      = clear_category db0 (normalizeCategory category)
    ∧ (_run_analysis_job env category job0 db0).2.filter
        (fun r => r.category == normalizeCategory category) = []
    ∧ (_run_analysis_job env category job0 db0).1.status = .error
    ∧ (_run_analysis_job env category job0 db0).1.error ≠ none := by
  have hrun : ∃ msg, _run_analysis_job env category job0 db0
      = (setJobError (setFetching (setRunning job0)) msg,
         clear_category db0 (normalizeCategory category)) := by
    cases hf : env.fetch with
    | valueError msg =>
      refine ⟨msg, ?_⟩
      simp only [_run_analysis_job, hf, hnc, Bool.false_eq_true, if_false]
    | requestError msg =>
      refine ⟨"Failed to fetch category: " ++ msg, ?_⟩
      simp only [_run_analysis_job, hf, hnc, Bool.false_eq_true, if_false]
    | ok files =>
      rw [hf] at hfail
      subst hfail
      refine ⟨"No files found in category", ?_⟩
      simp only [_run_analysis_job, hf, hnc, Bool.false_eq_true, if_false,
        List.isEmpty_nil, if_true]
  obtain ⟨msg, hrun⟩ := hrun
  refine ⟨by rw [hrun], ?_, by rw [hrun]; rfl, by rw [hrun]; simp [setJobError]⟩
  rw [hrun]
  exact filter_clear_category db0 (normalizeCategory category)

/-- Witness for C10: a failed fetch of category "X" leaves the job in
`error` and the previously stored row of `Category:X` erased. -/
theorem clear_precedes_fetch_failure_witness :
    (_run_analysis_job
        ⟨.valueError "Category does not exist on Wikimedia Commons",
         fun _ => .raise, fun _ => .raise, fun _ => false⟩ "X" jobInit
        [⟨"File:Old.jpg", "Category:X", none, false⟩]).2
      = clear_category [⟨"File:Old.jpg", "Category:X", none, false⟩]
          (normalizeCategory "X")
    ∧ (_run_analysis_job
        ⟨.valueError "Category does not exist on Wikimedia Commons",
         fun _ => .raise, fun _ => .raise, fun _ => false⟩ "X" jobInit
        [⟨"File:Old.jpg", "Category:X", none, false⟩]).1.status = .error :=
  have h := clear_precedes_fetch_failure
    ⟨.valueError "Category does not exist on Wikimedia Commons",
     fun _ => .raise, fun _ => .raise, fun _ => false⟩ "X" jobInit
    [⟨"File:Old.jpg", "Category:X", none, false⟩] (fun _ => rfl) trivial
  ⟨h.1, h.2.2.1⟩

/-! ### api.resolve_labels -/

/-- Behaviour of the remote label service (`wbgetentities` with
`props=labels`): for each requested QID, either the `labels` member of
its entity as (language, value) pairs, or `none` when the response
carries no entity for that id.  The response is keyed by the requested
ids. -/
structure LabelEnv where
  entities : String → Option (List (String × String))

/-- Lookup `labels.get(lang, {}).get("value")`. -/
def lookupLang (labels : List (String × String)) (lang : String) : Option String :=
  (labels.find? (fun p => p.1 == lang)).map (·.2)

/-- The fallback expression of `resolve_labels`:
`labels.get(language, {}).get("value") or labels.get("en", {}).get("value", qid)`.
Python `or` takes the second operand whenever the first is falsy, so an
empty-string label in the requested language falls through to the
English value (which is `qid` when the response has no English
entry). -/
def fallbackLabel (labels : List (String × String)) (language qid : String) :
    String :=
  match lookupLang labels language with
  | some v => if v = "" then (lookupLang labels "en").getD qid else v
  | none => (lookupLang labels "en").getD qid

/-- The composite cache key `f"{qid}:{language}"`. -/
def cacheKey (qid language : String) : String := qid ++ ":" ++ language

/-- Python dict assignment `d[k] = v`: overwrite in place, or append a
new entry. -/
def dictInsert (d : List (String × String)) (k v : String) :
    List (String × String) :=
  if d.any (fun p => p.1 == k) then
    d.map fun p => if p.1 == k then (k, v) else p
  else d ++ [(k, v)]

/-- Python dict read `d.get(k)`. -/
def dictGet (d : List (String × String)) (k : String) : Option String :=
  (d.find? (fun p => p.1 == k)).map (·.2)

/-- The first loop of `resolve_labels`: consult the cache for each QID
(side-effecting the cache through `_cache_get`), collecting hits into
the result dict and misses into `qids_to_fetch`. -/
def cachePass [LinearOrder Time] [Sub Time] (ttl : Time) (language : String)
    (now : Time) :
    List String → List (String × String) → List String → Cache Time →
      List (String × String) × List String × Cache Time
  | [], res, toFetch, c => (res, toFetch, c)
  | qid :: rest, res, toFetch, c =>
    match _cache_get ttl c (cacheKey qid language) now with
    | (some v, c') => cachePass ttl language now rest (dictInsert res qid v) toFetch c'
    | (none, c') => cachePass ttl language now rest res (toFetch ++ [qid]) c'

/-- Batches of up to 50 ids, as produced by
`range(0, len(qids_to_fetch), 50)`.  The first argument is recursion
fuel instantiated with the list length — always sufficient, since each
step drops at least one element. -/
def chunksFuel : Nat → List String → List (List String)
  | _, [] => []
  | 0, _ :: _ => []
  | fuel + 1, q :: rest => (q :: rest).take 50 :: chunksFuel fuel ((q :: rest).drop 50)

/-- Batches of up to 50 ids of the fetch loop of `resolve_labels`. -/
def chunks50 (l : List String) : List (List String) := chunksFuel l.length l

/-- Body of the response loop `for qid, entity in entities.items()`:
compute the fallback label, store it in the result dict and in the cache
under the language-qualified key. -/
def storeEntity [LinearOrder Time] [Sub Time] (maxSize : Nat) (language : String)
    (now : Time) (acc : List (String × String) × Cache Time)
    (p : String × List (String × String)) :
    List (String × String) × Cache Time :=
  (dictInsert acc.1 p.1 (fallbackLabel p.2 language p.1),
   _cache_set maxSize acc.2 (cacheKey p.1 language) (fallbackLabel p.2 language p.1) now)

/-- The batched fetch loop of `resolve_labels`: one remote call per
batch; each answered id of the batch is stored via `storeEntity`. -/
def fetchPass [LinearOrder Time] [Sub Time] (env : LabelEnv) (maxSize : Nat)
    (language : String) (now : Time) :
    List (List String) → List (String × String) → Cache Time →
      List (String × String) × Cache Time
  | [], res, c => (res, c)
  | batch :: rest, res, c =>
    let entities := batch.filterMap fun q => (env.entities q).map fun ls => (q, ls)
    let step := entities.foldl (storeEntity maxSize language now) (res, c)
    fetchPass env maxSize language now rest step.1 step.2

/-- Embedding of `api.resolve_labels(qids, language)` (the body wrapped
by the retry decorator, on a run where the remote calls succeed),
parametrized by the cache configuration (`_LABEL_CACHE_TTL`,
`_LABEL_CACHE_MAX`), the call time and the starting cache state.
Returns the result dict together with the final cache. -/
def resolve_labels [LinearOrder Time] [Sub Time] (env : LabelEnv) (ttl : Time)
    (maxSize : Nat) (qids : List String) (language : String) (now : Time)
    (cache0 : Cache Time) : List (String × String) × Cache Time :=
  if qids.isEmpty then ([], cache0)
  else
    match cachePass ttl language now qids [] [] cache0 with
    | (res, toFetch, c1) =>
      if toFetch.isEmpty then (res, c1)
      else fetchPass env maxSize language now (chunks50 toFetch) res c1

/-- Sequential per-id view of the batched fetch loop: each answered id
is stored via dict insert and cache set, unanswered ids are skipped. -/
def processList [LinearOrder Time] [Sub Time] (env : LabelEnv) (maxSize : Nat)
    (language : String) (now : Time) :
    List String → List (String × String) → Cache Time →
      List (String × String) × Cache Time
  | [], res, c => (res, c)
  | q :: rest, res, c =>
    match env.entities q with
    | none => processList env maxSize language now rest res c
    | some ls =>
      processList env maxSize language now rest
        (dictInsert res q (fallbackLabel ls language q))
        (_cache_set maxSize c (cacheKey q language) (fallbackLabel ls language q) now)

/-- Result-dict rows produced for the answered ids of a list, in
order. -/
def answeredList (env : LabelEnv) (language : String) (l : List String) :
    List (String × String) :=
  l.filterMap fun q => (env.entities q).map fun ls => (q, fallbackLabel ls language q)

/-- Cache rows produced for the answered ids of a list, in order. -/
def cacheRows (env : LabelEnv) (language : String) (now : Time)
    (l : List String) : Cache Time :=
  l.filterMap fun q =>
    (env.entities q).map fun ls => (cacheKey q language, fallbackLabel ls language q, now)

theorem cacheKey_inj (q q' lang : String) (h : cacheKey q lang = cacheKey q' lang) :
    q = q' := by
  have hd : (q ++ ":" ++ lang).data = (q' ++ ":" ++ lang).data :=
    congrArg String.data h
  simp only [String.data_append] at hd
  exact String.ext (List.append_cancel_right (List.append_cancel_right hd))

theorem cache_get_nil [LinearOrder Time] [Sub Time] (ttl : Time) (k : String)
    (now : Time) : _cache_get ttl ([] : Cache Time) k now = (none, []) := rfl

theorem cachePass_empty [LinearOrder Time] [Sub Time] (ttl : Time)
    (language : String) (now : Time) :
    ∀ (qids : List String) (res : List (String × String)) (toFetch : List String),
      cachePass ttl language now qids res toFetch ([] : Cache Time)
        = (res, toFetch ++ qids, []) := by
  intro qids
  induction qids with
  | nil => intro res toFetch; simp [cachePass]
  | cons qid rest ih =>
    intro res toFetch
    rw [cachePass, cache_get_nil]
    show cachePass ttl language now rest res (toFetch ++ [qid]) [] = _
    rw [ih res (toFetch ++ [qid])]
    simp

theorem processList_cons_none [LinearOrder Time] [Sub Time] (env : LabelEnv)
    (maxSize : Nat) (language : String) (now : Time) (q : String)
    (rest : List String) (res : List (String × String)) (c : Cache Time)
    (h : env.entities q = none) :
    processList env maxSize language now (q :: rest) res c
      = processList env maxSize language now rest res c := by
  rw [processList, h]

theorem processList_cons_some [LinearOrder Time] [Sub Time] (env : LabelEnv)
    (maxSize : Nat) (language : String) (now : Time) (q : String)
    (rest : List String) (res : List (String × String)) (c : Cache Time)
    (ls : List (String × String)) (h : env.entities q = some ls) :
    processList env maxSize language now (q :: rest) res c
      = processList env maxSize language now rest
          (dictInsert res q (fallbackLabel ls language q))
          (_cache_set maxSize c (cacheKey q language)
            (fallbackLabel ls language q) now) := by
  rw [processList, h]

theorem answeredList_cons_none (env : LabelEnv) (language : String) (q : String)
    (rest : List String) (h : env.entities q = none) :
    answeredList env language (q :: rest) = answeredList env language rest := by
  unfold answeredList
  rw [List.filterMap_cons, h]
  rfl

theorem answeredList_cons_some (env : LabelEnv) (language : String) (q : String)
    (rest : List String) (ls : List (String × String))
    (h : env.entities q = some ls) :
    answeredList env language (q :: rest)
      = (q, fallbackLabel ls language q) :: answeredList env language rest := by
  unfold answeredList
  rw [List.filterMap_cons, h]
  rfl

theorem cacheRows_cons_none (env : LabelEnv) (language : String) (now : Time)
    (q : String) (rest : List String) (h : env.entities q = none) :
    cacheRows env language now (q :: rest) = cacheRows env language now rest := by
  unfold cacheRows
  rw [List.filterMap_cons, h]
  rfl

theorem cacheRows_cons_some (env : LabelEnv) (language : String) (now : Time)
    (q : String) (rest : List String) (ls : List (String × String))
    (h : env.entities q = some ls) :
    cacheRows env language now (q :: rest)
      = (cacheKey q language, fallbackLabel ls language q, now)
          :: cacheRows env language now rest := by
  unfold cacheRows
  rw [List.filterMap_cons, h]
  rfl

theorem dictInsert_append (d : List (String × String)) (k v : String)
    (hfresh : ∀ p ∈ d, p.1 ≠ k) : dictInsert d k v = d ++ [(k, v)] := by
  unfold dictInsert
  rw [if_neg]
  intro hany
  rw [List.any_eq_true] at hany
  obtain ⟨p, hp, hpk⟩ := hany
  exact hfresh p hp (by simpa using hpk)

theorem eraseKey_of_forall_ne (c : Cache Time) (k : String)
    (h : ∀ e ∈ c, e.1 ≠ k) : eraseKey c k = c := by
  rw [eraseKey, List.filter_eq_self]
  intro e he
  simpa [bne] using h e he

theorem cache_set_append [LinearOrder Time] [Sub Time] (maxSize : Nat)
    (c : Cache Time) (k v : String) (now : Time)
    (hfresh : ∀ e ∈ c, e.1 ≠ k) (hlen : c.length + 1 ≤ maxSize) :
    _cache_set maxSize c k v now = c ++ [(k, v, now)] := by
  unfold _cache_set
  rw [eraseKey_of_forall_ne c k hfresh, evictWhileOver_eq_drop]
  have hz : (c ++ [(k, v, now)]).length - maxSize = 0 := by
    simp only [List.length_append, List.length_cons, List.length_nil]
    omega
  rw [hz, List.drop_zero]

theorem foldl_storeEntity_eq_processList [LinearOrder Time] [Sub Time]
    (env : LabelEnv) (maxSize : Nat) (language : String) (now : Time) :
    ∀ (batch : List String) (res : List (String × String)) (c : Cache Time),
      (batch.filterMap fun q => (env.entities q).map fun ls => (q, ls)).foldl
          (storeEntity maxSize language now) (res, c)
        = processList env maxSize language now batch res c := by
  intro batch
  induction batch with
  | nil => intro res c; rfl
  | cons q rest ih =>
    intro res c
    rw [List.filterMap_cons]
    cases hq : env.entities q with
    | none =>
      rw [processList_cons_none env maxSize language now q rest res c hq]
      exact ih res c
    | some ls =>
      rw [processList_cons_some env maxSize language now q rest res c ls hq]
      exact ih _ _

theorem processList_append [LinearOrder Time] [Sub Time] (env : LabelEnv)
    (maxSize : Nat) (language : String) (now : Time) :
    ∀ (a b : List String) (res : List (String × String)) (c : Cache Time),
      processList env maxSize language now (a ++ b) res c
        = processList env maxSize language now b
            (processList env maxSize language now a res c).1
            (processList env maxSize language now a res c).2 := by
  intro a
  induction a with
  | nil => intro b res c; rfl
  | cons q rest ih =>
    intro b res c
    rw [List.cons_append]
    cases hq : env.entities q with
    | none =>
      rw [processList_cons_none env maxSize language now q (rest ++ b) res c hq,
        processList_cons_none env maxSize language now q rest res c hq]
      exact ih b res c
    | some ls =>
      rw [processList_cons_some env maxSize language now q (rest ++ b) res c ls hq,
        processList_cons_some env maxSize language now q rest res c ls hq]
      exact ih b _ _

theorem fetchPass_chunksFuel [LinearOrder Time] [Sub Time] (env : LabelEnv)
    (maxSize : Nat) (language : String) (now : Time) :
    ∀ (fuel : Nat) (l : List String) (res : List (String × String))
      (c : Cache Time), l.length ≤ fuel →
      fetchPass env maxSize language now (chunksFuel fuel l) res c
        = processList env maxSize language now l res c := by
  intro fuel
  induction fuel with
  | zero =>
    intro l res c hl
    have hnil : l = [] := List.length_eq_zero.mp (Nat.le_zero.mp hl)
    subst hnil
    rfl
  | succ fuel ih =>
    intro l res c hl
    cases l with
    | nil => rfl
    | cons q rest =>
      rw [chunksFuel]
      simp only [fetchPass]
      rw [foldl_storeEntity_eq_processList]
      rw [ih ((q :: rest).drop 50) _ _
        (by simp only [List.length_drop, List.length_cons] at hl ⊢; omega)]
      rw [← processList_append, List.take_append_drop]

theorem processList_closed [LinearOrder Time] [Sub Time] (env : LabelEnv)
    (maxSize : Nat) (language : String) (now : Time) :
    ∀ (l : List String) (res : List (String × String)) (c : Cache Time),
      l.Nodup →
      (∀ q ∈ l, ∀ p ∈ res, p.1 ≠ q) →
      (∀ q ∈ l, ∀ e ∈ c, e.1 ≠ cacheKey q language) →
      c.length + l.length ≤ maxSize →
      processList env maxSize language now l res c
        = (res ++ answeredList env language l, c ++ cacheRows env language now l) := by
  intro l
  induction l with
  | nil => intro res c _ _ _ _; simp [processList, answeredList, cacheRows]
  | cons q rest ih =>
    intro res c hnodup hres hc hlen
    cases hq : env.entities q with
    | none =>
      rw [processList_cons_none env maxSize language now q rest res c hq]
      rw [ih res c (List.Nodup.of_cons hnodup)
        (fun q' hq' => hres q' (List.mem_cons_of_mem q hq'))
        (fun q' hq' => hc q' (List.mem_cons_of_mem q hq'))
        (by simp only [List.length_cons] at hlen ⊢; omega)]
      rw [answeredList_cons_none env language q rest hq,
        cacheRows_cons_none env language now q rest hq]
    | some ls =>
      rw [processList_cons_some env maxSize language now q rest res c ls hq]
      rw [dictInsert_append res q _ (hres q (List.mem_cons_self q rest))]
      rw [cache_set_append maxSize c (cacheKey q language) _ now
        (hc q (List.mem_cons_self q rest))
        (by simp only [List.length_cons] at hlen ⊢; omega)]
      rw [ih (res ++ [(q, fallbackLabel ls language q)])
        (c ++ [(cacheKey q language, fallbackLabel ls language q, now)])
        (List.Nodup.of_cons hnodup) ?hres' ?hc' ?hlen']
      case hres' =>
        intro q' hq' p hp
        rw [List.mem_append] at hp
        rcases hp with hp | hp
        · exact hres q' (List.mem_cons_of_mem q hq') p hp
        · rw [List.mem_singleton] at hp
          subst hp
          intro hcontra
          exact (List.nodup_cons.mp hnodup).1 ((show q = q' from hcontra) ▸ hq')
      case hc' =>
        intro q' hq' e he
        rw [List.mem_append] at he
        rcases he with he | he
        · exact hc q' (List.mem_cons_of_mem q hq') e he
        · rw [List.mem_singleton] at he
          subst he
          intro hcontra
          exact (List.nodup_cons.mp hnodup).1
            (cacheKey_inj q q' language
              (show cacheKey q language = cacheKey q' language from hcontra) ▸ hq')
      case hlen' =>
        simp only [List.length_append, List.length_cons, List.length_nil]
          at hlen ⊢
        omega
      rw [answeredList_cons_some env language q rest ls hq,
        cacheRows_cons_some env language now q rest ls hq]
      simp [List.append_assoc]

theorem dictGet_answeredList (env : LabelEnv) (language : String) :
    ∀ (l : List String), l.Nodup → ∀ (q : String) (ls : List (String × String)),
      q ∈ l → env.entities q = some ls →
      dictGet (answeredList env language l) q
        = some (fallbackLabel ls language q) := by
  intro l
  induction l with
  | nil => intro _ q ls hq; simp at hq
  | cons p rest ih =>
    intro hnodup q ls hq hent
    rcases List.mem_cons.mp hq with hq | hq
    · subst hq
      rw [answeredList_cons_some env language q rest ls hent]
      simp [dictGet]
    · have hne : p ≠ q := by
        intro he
        exact (List.nodup_cons.mp hnodup).1 (he ▸ hq)
      cases hp : env.entities p with
      | none =>
        rw [answeredList_cons_none env language p rest hp]
        exact ih (List.Nodup.of_cons hnodup) q ls hq hent
      | some ls' =>
        rw [answeredList_cons_some env language p rest ls' hp]
        rw [dictGet, List.find?_cons_of_neg _ (by simp [hne])]
        exact ih (List.Nodup.of_cons hnodup) q ls hq hent

theorem find?_cacheRows (env : LabelEnv) (language : String) (now : Time) :
    ∀ (l : List String), l.Nodup → ∀ (q : String) (ls : List (String × String)),
      q ∈ l → env.entities q = some ls →
      List.find? (fun e => e.1 == cacheKey q language)
          (cacheRows env language now l)
        = some (cacheKey q language, fallbackLabel ls language q, now) := by
  intro l
  induction l with
  | nil => intro _ q ls hq; simp at hq
  | cons p rest ih =>
    intro hnodup q ls hq hent
    rcases List.mem_cons.mp hq with hq | hq
    · subst hq
      rw [cacheRows_cons_some env language now q rest ls hent]
      simp
    · have hne : cacheKey p language ≠ cacheKey q language := by
        intro he
        exact (List.nodup_cons.mp hnodup).1 (cacheKey_inj p q language he ▸ hq)
      cases hp : env.entities p with
      | none =>
        rw [cacheRows_cons_none env language now p rest hp]
        exact ih (List.Nodup.of_cons hnodup) q ls hq hent
      | some ls' =>
        rw [cacheRows_cons_some env language now p rest ls' hp]
        rw [List.find?_cons_of_neg _ (by simp [hne])]
        exact ih (List.Nodup.of_cons hnodup) q ls hq hent

theorem resolve_labels_empty_cache [LinearOrder Time] [Sub Time]
    (env : LabelEnv) (ttl : Time) (maxSize : Nat) (qids : List String)
    (language : String) (now : Time) (hne : qids ≠ []) (hnodup : qids.Nodup)
    (hlen : qids.length ≤ maxSize) :
    resolve_labels env ttl maxSize qids language now []
      = (answeredList env language qids, cacheRows env language now qids) := by
  have hempty : qids.isEmpty = false := by
    cases qids with
    | nil => exact absurd rfl hne
    | cons q rest => rfl
  rw [resolve_labels, cachePass_empty ttl language now qids [] []]
  simp only [hempty, Bool.false_eq_true, if_false, List.nil_append]
  rw [chunks50, fetchPass_chunksFuel env maxSize language now qids.length qids
    [] [] (Nat.le_refl _)]
  rw [processList_closed env maxSize language now qids [] []
    hnodup (by simp) (by simp) (by simpa using hlen)]
  simp

/-- C9 counterexample.  A label in the requested language does exist for
Q1 (`labels["fr"]["value"] = ""`), yet the resolved label is the English
"Cat", not that existing label: Python's `or` treats the empty string as
falsy, so the claimed fallback order "requested-language label if one
exists" does not hold as stated. -/
theorem resolve_labels_empty_label_counterexample :
    lookupLang [("fr", ""), ("en", "Cat")] "fr" = some ""
    ∧ dictGet (resolve_labels
        ⟨fun q => if q == "Q1" then some [("fr", ""), ("en", "Cat")] else none⟩
        (3600 : ℤ) 5000 ["Q1"] "fr" 0 []).1 "Q1" = some "Cat"
    ∧ ("Cat" : String) ≠ "" := by
  decide

/-- C9 amended.  For every identifier submitted to `resolve_labels` that
the remote service answers for (starting from an empty cache, with
distinct ids fitting the cache capacity), the returned label follows the
fallback order of the code: the label in the requested language if a
nonempty one exists, otherwise the English label if the response has an
English entry, otherwise the raw identifier (`fallbackLabel`); and that
label is stored in the cache under the language-qualified key
`qid ++ ":" ++ language`. -/
theorem resolve_labels_fallback_and_caching [LinearOrder Time] [Sub Time]
    (env : LabelEnv) (ttl : Time) (maxSize : Nat) (qids : List String)
    (language : String) (now : Time) (hnodup : qids.Nodup)
    (hlen : qids.length ≤ maxSize) :
    ∀ qid ∈ qids, ∀ labels, env.entities qid = some labels →
      dictGet (resolve_labels env ttl maxSize qids language now []).1 qid
        = some (fallbackLabel labels language qid)
      ∧ List.find? (fun e => e.1 == cacheKey qid language)
          (resolve_labels env ttl maxSize qids language now []).2
        = some (cacheKey qid language, fallbackLabel labels language qid, now) := by
  intro qid hqid labels hent
  have hne : qids ≠ [] := by
    intro hnil
    rw [hnil] at hqid
    simp at hqid
  rw [resolve_labels_empty_cache env ttl maxSize qids language now hne hnodup hlen]
  exact ⟨dictGet_answeredList env language qids hnodup qid labels hqid hent,
    find?_cacheRows env language now qids hnodup qid labels hqid hent⟩

/-- Witness for the amended C9: resolving Q1 in French returns the
French label "Chat" and stores it in the cache under "Q1:fr". -/
theorem resolve_labels_fallback_and_caching_witness :
    dictGet (resolve_labels ⟨fun q => if q == "Q1" then some [("fr", "Chat")] else none⟩
        (3600 : ℤ) 5000 ["Q1"] "fr" 0 []).1 "Q1" = some "Chat"
    ∧ List.find? (fun e => e.1 == cacheKey "Q1" "fr")
        (resolve_labels ⟨fun q => if q == "Q1" then some [("fr", "Chat")] else none⟩
          (3600 : ℤ) 5000 ["Q1"] "fr" 0 []).2
      = some (cacheKey "Q1" "fr", "Chat", 0) := by
  have h := resolve_labels_fallback_and_caching
    ⟨fun q => if q == "Q1" then some [("fr", "Chat")] else none⟩
    (3600 : ℤ) 5000 ["Q1"] "fr" 0 (by decide) (by decide) "Q1"
    (List.mem_cons_self "Q1" []) [("fr", "Chat")] rfl
  exact ⟨h.1.trans (by decide), h.2.trans (by decide)⟩

end DepictsAnalyzer
